import Mathlib

/-!
Verification of the core of the `openai_enhance` gateway: the token-budget
truncation engine (`src/lib.rs`, `truncate_messages` / `truncate_message`) and
the incremental think-tag extraction state machine
(`src/cot/deepseek.rs`, `extract_cot`).

The byte-pair tokenizer is an external capability (spec section 1): it is
modelled as an abstract pair of total functions `encode` / `decode`.  Rust's
`VecDeque::drain(..n)` panics when `n` exceeds the length, and the conversation
loop carries an `assert!`; both potential panics are modelled by `Option`
results (`none` = panic).  `CoreBPE::_decode_native_and_split` followed by
`String::from_utf8_lossy` never fails, hence `decode` is total.

The async generator `extract_cot` is embedded as a function from the list of
upstream items (`Result<Chunk>` becomes `Except String Chunk`, upstream errors
carrying their message) to the list of yielded items, parameterised by the
current `ThinkTagState`; the Rust generator starts in `Init`.  String
operations of the source (`starts_with`, `strip_prefix`, `trim_start`,
`contains`, `splitn(2, _)`, `is_empty`) are given executable character-list
implementations so that every concrete run evaluates inside the kernel.
-/

namespace OpenaiEnhance

/-- `Message { role, content }` from `src/lib.rs`. -/
structure Message where
  role : String
  content : String
  deriving DecidableEq, Repr

/-- The tokenizer capability consumed by the budgeting engine: the source's
`bpe.encode_with_special_tokens` and (lossy, total) decoding via
`bpe._decode_native_and_split` + `String::from_utf8_lossy`. -/
structure Tokenizer where
  encode : String → List Nat
  decode : List Nat → String

/-- `truncate_message` from `src/lib.rs`: drain the first `max_token` tokens
and decode the remaining tail into the content.  `VecDeque::drain(..max_token)`
panics when `max_token > tokens.len()`; that case is `none`. -/
def truncate_message (tok : Tokenizer) (max_token : Nat) (tokens : List Nat) :
    Option String :=
  if max_token ≤ tokens.length then
    some (tok.decode (tokens.drop max_token))
  else
    none

/-- The `MessageType::Single` arm of `truncate_messages`: encode, no-op when
within budget, otherwise drop the first `max_token` tokens. -/
def truncate_single (tok : Tokenizer) (message : String) (max_token : Nat) :
    Option String :=
  let tokens := tok.encode message
  if tokens.length ≤ max_token then
    some message
  else
    truncate_message tok max_token tokens

/-- The `while sum > max_token` loop of the `MessageType::Multiple` arm.
`token_list` mirrors the deque of per-message encodings, popped in lock-step
with the message deque.  The `assert!(!token_list.is_empty())` firing (or the
`messages[0]` index panicking) is `none`.  Branches follow the source order:
drop the whole front message while `sum - token_len > max_token` and more than
one entry remains; recurse into the single-message contract when only one
entry remains; otherwise partially trim the front message by
`sum - max_token` tokens and stop. -/
def truncate_multiple_loop (tok : Tokenizer) (max_token : Nat) :
    Nat → List (List Nat) → List Message → Option (List Message)
  | sum, [], messages =>
    if sum ≤ max_token then some messages else none
  | sum, tokens :: rest_tokens, messages =>
    if sum ≤ max_token then some messages
    else
      match messages with
      | [] => none
      | msg :: rest_msgs =>
        if max_token < sum - tokens.length then
          if rest_tokens.isEmpty then
            (truncate_single tok msg.content max_token).map
              (fun c => { msg with content := c } :: rest_msgs)
          else
            truncate_multiple_loop tok max_token (sum - tokens.length) rest_tokens rest_msgs
        else
          (truncate_message tok (sum - max_token) tokens).map
            (fun c => { msg with content := c } :: rest_msgs)

/-- The `MessageType::Multiple` arm of `truncate_messages`: build the token
lists, sum the counts, no-op when within budget, otherwise run the loop. -/
def truncate_multiple (tok : Tokenizer) (messages : List Message) (max_token : Nat) :
    Option (List Message) :=
  let token_list := messages.map (fun m => tok.encode m.content)
  let sum := (token_list.map List.length).sum
  if sum ≤ max_token then some messages
  else truncate_multiple_loop tok max_token sum token_list messages

/-- `MessageType` from `src/lib.rs`. -/
inductive MessageType where
  | Single (message : String)
  | Multiple (messages : List Message)
  deriving DecidableEq

/-- `truncate_messages` from `src/lib.rs`, dispatching on the message type. -/
def truncate_messages (tok : Tokenizer) (messages : MessageType) (max_token : Nat) :
    Option MessageType :=
  match messages with
  | MessageType.Single message =>
    (truncate_single tok message max_token).map MessageType.Single
  | MessageType.Multiple msgs =>
    (truncate_multiple tok msgs max_token).map MessageType.Multiple

/-- Total encoded token count of a conversation (the `sum` the source computes
before truncating). -/
def conversation_tokens (tok : Tokenizer) (messages : List Message) : Nat :=
  (messages.map (fun m => (tok.encode m.content).length)).sum

/-- Concrete tokenizer used to instantiate theorems: token `n` decodes to
`n` copies of `a` followed by one `b`, and encoding parses that shape back,
so re-encoding a decoded token list recovers it exactly. -/
def unaryDecodeList : List Nat → List Char
  | [] => []
  | n :: rest => List.replicate n 'a' ++ 'b' :: unaryDecodeList rest

/-- Parser for `unaryDecodeList`'s output: `k` counts the `a`s seen since the
last `b`. -/
def unaryEncodeAux : List Char → Nat → List Nat
  | [], _ => []
  | c :: rest, k =>
    if c = 'b' then k :: unaryEncodeAux rest 0
    else unaryEncodeAux rest (k + 1)

/-- The concrete unary tokenizer. -/
def unaryTok : Tokenizer :=
  { encode := fun s => unaryEncodeAux s.data 0
    decode := fun l => String.mk (unaryDecodeList l) }

/-- Example conversation: token counts 1 and 1, total 2. -/
def msgsEx : List Message :=
  [{ role := "user", content := "aab" }, { role := "assistant", content := "b" }]

/-- Result of truncating `msgsEx` to budget 1. -/
def resEx : List Message :=
  [{ role := "user", content := "" }, { role := "assistant", content := "b" }]

/-- `Delta` from `src/sse.rs`. -/
structure Delta where
  reasoning_content : Option String
  content : Option String
  deriving DecidableEq, Repr

/-- `FinishReason` from `src/sse.rs`. -/
inductive FinishReason where
  | stop
  | length
  | tool_calls
  | content_filter
  | function_call
  deriving DecidableEq, Repr

/-- `Choice` from `src/sse.rs` (`logprobs` is an opaque passed-through
payload, modelled as an optional string). -/
structure Choice where
  index : Int
  delta : Delta
  logprobs : Option String
  finish_reason : Option FinishReason
  stop_reason : Option String
  deriving DecidableEq, Repr

/-- `Chunk` from `src/sse.rs`. -/
structure Chunk where
  id : String
  object : String
  created : Nat
  model : String
  choices : List Choice
  deriving DecidableEq, Repr

/-- `ThinkTagState` from `src/cot/deepseek.rs`. -/
inductive ThinkTagState where
  | Init
  | Begin (trimmed_follow_new_line : Bool)
  | End
  | NoTag
  deriving DecidableEq, Repr

/-- `THINK_BEGIN_TAG` constant. -/
def THINK_BEGIN_TAG : String := "<think>"

/-- `THINK_END_TAG` constant. -/
def THINK_END_TAG : String := "</think>"

/-- Executable model of Rust `str::starts_with` for a literal pattern. -/
def strStartsWith (s pat : String) : Bool :=
  pat.data.isPrefixOf s.data

/-- Executable model of dropping the first `n` characters (used for
`strip_prefix`, whose pattern length is known). -/
def strDropChars (s : String) (n : Nat) : String :=
  String.mk (s.data.drop n)

/-- Executable model of Rust `str::trim_start` (leading-whitespace removal). -/
def strTrimLeft (s : String) : String :=
  String.mk (s.data.dropWhile Char.isWhitespace)

/-- Executable model of Rust `str::is_empty`. -/
def strIsEmpty (s : String) : Bool :=
  s.data.isEmpty

/-- Split a character list at the first occurrence of `pat`: `none` when `pat`
does not occur, else the characters before it and the characters after it. -/
def splitFirstAux (pat : List Char) : List Char → Option (List Char × List Char)
  | [] => none
  | c :: rest =>
    if pat.isPrefixOf (c :: rest) then
      some ([], (c :: rest).drop pat.length)
    else
      match splitFirstAux pat rest with
      | some p => some (c :: p.1, p.2)
      | none => none

/-- Executable model of Rust `str::splitn(2, pat)`: the part before the first
occurrence of `pat`, and — when `pat` occurs — the remainder after it
(possibly empty, exactly as `splitn` yields a trailing `""` when the pattern
sits at the very end). -/
def splitFirst (s pat : String) : String × Option String :=
  match splitFirstAux pat.data s.data with
  | some p => (String.mk p.1, some (String.mk p.2))
  | none => (s, none)

/-- Executable model of Rust `str::contains` for a non-empty pattern. -/
def strContains (s pat : String) : Bool :=
  (splitFirst s pat).2.isSome

/-- The heartbeat-suppression condition of `extract_cot` (lines 41-54):
both fields present and empty. -/
def isHeartbeat (delta : Delta) : Bool :=
  ((delta.reasoning_content.map strIsEmpty).getD false)
    && ((delta.content.map strIsEmpty).getD false)

/-- Rebuild a chunk whose first choice's delta was overwritten in place
(`chunk.choices[0].delta = ...` in the source). -/
def withDelta (chunk : Chunk) (choice : Choice) (tl : List Choice) (d : Delta) : Chunk :=
  { chunk with choices := { choice with delta := d } :: tl }

/-- One iteration of the `while let Some(chunk)` loop body of `extract_cot`,
given the current state and a successfully received chunk: either a fatal
error (terminating the output), or the list of chunks yielded for this input
item together with the successor state.  Mirrors `src/cot/deepseek.rs`
lines 34-192 arm by arm. -/
def processChunk (state : ThinkTagState) (chunk : Chunk) :
    Except String (List Chunk × ThinkTagState) :=
  match chunk.choices with
  | [] => Except.error "empty choice"
  | choice :: tl =>
    let delta := choice.delta
    if isHeartbeat delta then
      Except.ok ([], state)
    else
      match state with
      | ThinkTagState.Init =>
        if delta.reasoning_content.isSome then
          Except.ok ([chunk], ThinkTagState.End)
        else
          match delta.content with
          | none => Except.error "reasoning_content or content is empty"
          | some content =>
            if strStartsWith content THINK_BEGIN_TAG then
              let stripped := strDropChars content THINK_BEGIN_TAG.length
              let trimmed := strTrimLeft stripped
              if strContains trimmed THINK_END_TAG then
                let p := splitFirst trimmed THINK_END_TAG
                let reasoning_chunk := withDelta chunk choice tl (Delta.mk (some p.1) none)
                match p.2 with
                | some after =>
                  Except.ok ([reasoning_chunk,
                    withDelta chunk choice tl (Delta.mk none (some (strTrimLeft after)))],
                    ThinkTagState.End)
                | none =>
                  Except.ok ([reasoning_chunk], ThinkTagState.End)
              else
                Except.ok ([withDelta chunk choice tl (Delta.mk (some trimmed) none)],
                  ThinkTagState.Begin (trimmed != stripped))
            else
              Except.ok ([chunk], ThinkTagState.NoTag)
      | ThinkTagState.Begin trimmed_follow_new_line =>
        match delta.content with
        | none => Except.ok ([chunk], ThinkTagState.Begin trimmed_follow_new_line)
        | some content =>
          if strContains content THINK_END_TAG then
            let p := splitFirst content THINK_END_TAG
            let reasoning_chunk := withDelta chunk choice tl (Delta.mk (some p.1) none)
            match p.2 with
            | some after =>
              Except.ok ([reasoning_chunk,
                withDelta chunk choice tl (Delta.mk none (some after))],
                ThinkTagState.End)
            | none =>
              Except.ok ([reasoning_chunk], ThinkTagState.End)
          else
            Except.ok ([withDelta chunk choice tl
                (Delta.mk (some (if trimmed_follow_new_line then content
                                 else strTrimLeft content)) none)],
              ThinkTagState.Begin true)
      | ThinkTagState.End => Except.ok ([chunk], ThinkTagState.End)
      | ThinkTagState.NoTag => Except.ok ([chunk], ThinkTagState.NoTag)

/-- The `extract_cot` generator as a whole: consume the upstream items in
order; an upstream error is yielded as-is and terminates the output, a fatal
step error terminates the output, and otherwise the step's yields are emitted
and consumption continues in the successor state.  The source starts in
`ThinkTagState.Init`. -/
def extract_cot : ThinkTagState → List (Except String Chunk) → List (Except String Chunk)
  | _, [] => []
  | _, Except.error e :: _ => [Except.error e]
  | state, Except.ok chunk :: rest =>
    match processChunk state chunk with
    | Except.error e => [Except.error e]
    | Except.ok (outs, state') => outs.map Except.ok ++ extract_cot state' rest

/-- At most one of the two delta channels is populated. -/
def at_most_one (d : Delta) : Bool :=
  !(d.reasoning_content.isSome && d.content.isSome)

/-- The first choice's delta (the only one the state machine touches) has at
most one channel populated; vacuously true without choices. -/
def head_single (c : Chunk) : Bool :=
  match c.choices with
  | [] => true
  | ch :: _ => at_most_one ch.delta

/-- A chunk the terminal states forward untouched: it has a choice and is not
an empty heartbeat. -/
def passable (c : Chunk) : Bool :=
  match c.choices with
  | [] => false
  | ch :: _ => !(isHeartbeat ch.delta)

/-- A single-choice chunk around a delta, for concrete instances. -/
def mkChoice (d : Delta) : Choice :=
  { index := 0, delta := d, logprobs := none, finish_reason := none, stop_reason := none }

/-- A chunk with fixed metadata and one choice holding `d`. -/
def mkChunk (d : Delta) : Chunk :=
  { id := "id", object := "chat.completion.chunk", created := 0, model := "m",
    choices := [mkChoice d] }

/-- Heartbeat chunk: both fields present and empty. -/
def heartbeatChunk : Chunk := mkChunk { reasoning_content := some "", content := some "" }

/-- First chunk with present-but-empty content and absent reasoning. -/
def emptyContentChunk : Chunk := mkChunk { reasoning_content := none, content := some "" }

/-- In-think chunk whose content puts the closing tag exactly at the end. -/
def closeAtEndChunk : Chunk := mkChunk { reasoning_content := none, content := some "x</think>" }

/-- Ordinary content chunk with no tags. -/
def passEx : Chunk := mkChunk { reasoning_content := none, content := some "hello" }

/-- In-think chunk closing the block with trailing text. -/
def beginCloseChunk : Chunk := mkChunk { reasoning_content := none, content := some "r</think>tail" }

/-- In-think chunk with plain reasoning text. -/
def beginMoveChunk : Chunk := mkChunk { reasoning_content := none, content := some "abc" }

/-- First chunk opening and closing the think block at once, with a space
after the closing tag. -/
def initShortChunk : Chunk :=
  mkChunk { reasoning_content := none, content := some "<think>x</think> hi" }

/-- In-think closing chunk with a space after the closing tag. -/
def beginCloseSpaceChunk : Chunk :=
  mkChunk { reasoning_content := none, content := some "y</think> ho" }

/-- First chunk opening a think block that stays open. -/
def initThinkChunk : Chunk := mkChunk { reasoning_content := none, content := some "<think>hm" }

/-- Chunk with an empty choice list. -/
def emptyChoicesChunk : Chunk :=
  { id := "id", object := "chat.completion.chunk", created := 0, model := "m", choices := [] }

/-- Chunk whose delta has neither field. -/
def missingContentChunk : Chunk := mkChunk { reasoning_content := none, content := none }

/-- Later-stream chunk whose content begins with the opening think tag. -/
def thinkStartChunk : Chunk := mkChunk { reasoning_content := none, content := some "<think>zzz" }

/-! Lemmas about the unary tokenizer. -/

theorem unaryEncodeAux_replicate (rest : List Char) (n : Nat) : ∀ k : Nat,
    unaryEncodeAux (List.replicate n 'a' ++ 'b' :: rest) k = (k + n) :: unaryEncodeAux rest 0 := by
  induction n with
  | zero => intro k; simp [unaryEncodeAux]
  | succ n ih =>
    intro k
    rw [List.replicate_succ, List.cons_append]
    simp only [unaryEncodeAux, if_neg (show ¬ ('a' = 'b') by decide)]
    rw [ih (k + 1)]
    congr 1
    omega

theorem unary_roundtrip : ∀ l : List Nat, unaryTok.encode (unaryTok.decode l) = l := by
  intro l
  induction l with
  | nil => rfl
  | cons n rest ih =>
    show unaryEncodeAux (unaryDecodeList (n :: rest)) 0 = n :: rest
    rw [unaryDecodeList, unaryEncodeAux_replicate, Nat.zero_add]
    exact congrArg (List.cons n) ih

/-! Lemmas about the truncation loop. -/

theorem truncate_multiple_loop_exact (tok : Tokenizer) (B : Nat)
    (hRT : ∀ l, (tok.encode (tok.decode l)).length = l.length) :
    ∀ (token_list : List (List Nat)) (messages : List Message) (sum : Nat),
      token_list = messages.map (fun m => tok.encode m.content) →
      sum = (token_list.map List.length).sum →
      B < sum →
      ∃ messages', truncate_multiple_loop tok B sum token_list messages = some messages' ∧
        conversation_tokens tok messages' = B := by
  intro token_list
  induction token_list with
  | nil =>
    intro messages sum hsync hsum hB
    subst hsum
    simp at hB
  | cons tokens rest_tokens ih =>
    intro messages sum hsync hsum hB
    cases messages with
    | nil => simp at hsync
    | cons msg rest_msgs =>
      rw [List.map_cons] at hsync
      injection hsync with htok hrest
      rw [List.map_cons, List.sum_cons] at hsum
      by_cases hgt : B < sum - tokens.length
      · cases rest_tokens with
        | nil => exfalso; simp at hsum; omega
        | cons t2 ts2 =>
          obtain ⟨messages', heq, hcount⟩ :=
            ih rest_msgs (sum - tokens.length) hrest (by omega) hgt
          refine ⟨messages', ?_, hcount⟩
          simp only [truncate_multiple_loop]
          rw [if_neg (show ¬ sum ≤ B by omega), if_pos hgt]
          rw [show ((t2 :: ts2 : List (List Nat)).isEmpty) = false from rfl]
          rw [if_neg (show ¬ (false = true) by simp)]
          exact heq
      · refine ⟨{ msg with content := tok.decode (tokens.drop (sum - B)) } :: rest_msgs, ?_, ?_⟩
        · simp only [truncate_multiple_loop]
          rw [if_neg (show ¬ sum ≤ B by omega), if_neg hgt]
          simp only [truncate_message]
          rw [if_pos (show sum - B ≤ tokens.length by omega)]
          rfl
        · simp only [conversation_tokens, List.map_cons, List.sum_cons]
          have hlen : (tok.encode (tok.decode (tokens.drop (sum - B)))).length
              = tokens.length - (sum - B) := by rw [hRT, List.length_drop]
          have hrsum : (rest_msgs.map (fun m => (tok.encode m.content).length)).sum
              = (rest_tokens.map List.length).sum := by
            rw [hrest, List.map_map]
            rfl
          rw [hlen, hrsum]
          omega

theorem truncate_multiple_loop_total (tok : Tokenizer) (B : Nat) :
    ∀ (token_list : List (List Nat)) (messages : List Message) (sum : Nat),
      sum ≤ (token_list.map List.length).sum + B →
      token_list.length ≤ messages.length →
      (truncate_multiple_loop tok B sum token_list messages).isSome = true := by
  intro token_list
  induction token_list with
  | nil =>
    intro messages sum hsum _
    simp at hsum
    simp [truncate_multiple_loop, hsum]
  | cons tokens rest_tokens ih =>
    intro messages sum hsum hlen
    by_cases hle : sum ≤ B
    · simp [truncate_multiple_loop, hle]
    · cases messages with
      | nil => simp at hlen
      | cons msg rest_msgs =>
        simp only [truncate_multiple_loop]
        rw [if_neg hle]
        by_cases hgt : B < sum - tokens.length
        · rw [if_pos hgt]
          cases rest_tokens with
          | nil =>
            simp only [List.isEmpty_nil, if_pos]
            have hs : (truncate_single tok msg.content B).isSome = true := by
              simp only [truncate_single]
              split
              · rfl
              · rename_i hlt
                simp only [truncate_message]
                rw [if_pos (by omega)]
                rfl
            simpa using hs
          | cons t2 ts2 =>
            simp only [List.isEmpty_cons]
            rw [if_neg (by simp)]
            apply ih
            · simp only [List.map_cons, List.sum_cons] at hsum ⊢
              omega
            · simp only [List.length_cons] at hlen ⊢
              omega
        · rw [if_neg hgt]
          simp only [truncate_message]
          rw [if_pos (by omega)]
          rfl

theorem truncate_multiple_loop_shape (tok : Tokenizer) (B : Nat) :
    ∀ (token_list : List (List Nat)) (messages messages' : List Message) (sum : Nat),
      token_list = messages.map (fun m => tok.encode m.content) →
      truncate_multiple_loop tok B sum token_list messages = some messages' →
      (∃ k, messages' = messages.drop k) ∨
      (∃ k j, messages' = (messages.drop k).modifyHead
        (fun m => { m with content := tok.decode ((tok.encode m.content).drop j) })) := by
  intro token_list
  induction token_list with
  | nil =>
    intro messages messages' sum hsync h
    simp only [truncate_multiple_loop] at h
    split at h
    · injection h with h
      exact Or.inl ⟨0, by rw [List.drop_zero, h]⟩
    · exact Option.noConfusion h
  | cons tokens rest_tokens ih =>
    intro messages messages' sum hsync h
    cases messages with
    | nil => simp at hsync
    | cons msg rest_msgs =>
      rw [List.map_cons] at hsync
      injection hsync with htok hrest
      simp only [truncate_multiple_loop] at h
      split at h
      · injection h with h
        exact Or.inl ⟨0, by rw [List.drop_zero, h]⟩
      · split at h
        · split at h
          · simp only [truncate_single] at h
            split at h
            · simp only [Option.map_some'] at h
              injection h with h
              exact Or.inl ⟨0, by rw [List.drop_zero, ← h]⟩
            · simp only [truncate_message] at h
              split at h
              · simp only [Option.map_some'] at h
                injection h with h
                refine Or.inr ⟨0, B, ?_⟩
                rw [List.drop_zero, ← h, List.modifyHead]
              · simp at h
          · obtain h' | h' := ih rest_msgs messages' (sum - tokens.length) hrest h
            · obtain ⟨k, hk⟩ := h'
              exact Or.inl ⟨k + 1, by rw [hk, List.drop_succ_cons]⟩
            · obtain ⟨k, j, hk⟩ := h'
              exact Or.inr ⟨k + 1, j, by rw [hk, List.drop_succ_cons]⟩
        · simp only [truncate_message] at h
          split at h
          · simp only [Option.map_some'] at h
            injection h with h
            refine Or.inr ⟨0, sum - B, ?_⟩
            rw [List.drop_zero, ← h, List.modifyHead, htok]
          · simp at h

/-! Claim theorems about the truncation engine. -/

/-- Claim C1: for every conversation whose per-message token counts sum to
`S > B` with more than one message, conversation truncation terminates (the
loop is a total function, recursing structurally on the popped token lists)
and succeeds, and the total token count of the retained conversation is
exactly `B`, under the assumption that re-encoding a decoded token tail
yields the same token sequence. -/
theorem conversation_truncation_exact (tok : Tokenizer) (B : Nat) (messages : List Message)
    (hRT : ∀ l, tok.encode (tok.decode l) = l)
    (hB : B < conversation_tokens tok messages)
    (hlen : 1 < messages.length) :
    ∃ messages', truncate_multiple tok messages B = some messages' ∧
      conversation_tokens tok messages' = B := by
  have hRT' : ∀ l, (tok.encode (tok.decode l)).length = l.length := fun l => by rw [hRT l]
  have hsum : ((messages.map (fun m => tok.encode m.content)).map List.length).sum
      = conversation_tokens tok messages := by
    rw [List.map_map]
    rfl
  obtain ⟨messages', heq, hcount⟩ :=
    truncate_multiple_loop_exact tok B hRT' (messages.map (fun m => tok.encode m.content))
      messages (conversation_tokens tok messages) rfl hsum.symm hB
  refine ⟨messages', ?_, hcount⟩
  simp only [truncate_multiple]
  rw [hsum]
  rw [if_neg (show ¬ conversation_tokens tok messages ≤ B by omega)]
  exact heq

/-- Witness for C1 at the unary tokenizer, budget 1 and a two-message
conversation of total token count 2. -/
theorem conversation_truncation_exact_witness :
    (∀ l, unaryTok.encode (unaryTok.decode l) = l)
    ∧ 1 < conversation_tokens unaryTok msgsEx
    ∧ 1 < msgsEx.length
    ∧ ∃ messages', truncate_multiple unaryTok msgsEx 1 = some messages' ∧
        conversation_tokens unaryTok messages' = 1 :=
  ⟨unary_roundtrip, by decide, by decide,
    conversation_truncation_exact unaryTok 1 msgsEx unary_roundtrip (by decide) (by decide)⟩

/-- Claim C2: single-text truncation with budget `B` is a no-op when the
encoding has at most `B` tokens; otherwise it replaces the text by the
decoding of the encoding minus its first `B` tokens, so (when re-encoding the
decoded tail is exact) an original token count above `2 * B` leaves a result
that still exceeds the budget. -/
theorem single_truncation_spec (tok : Tokenizer) (B : Nat) (T : String)
    (hRT : tok.encode (tok.decode ((tok.encode T).drop B)) = (tok.encode T).drop B) :
    truncate_single tok T B =
      some (if (tok.encode T).length ≤ B then T else tok.decode ((tok.encode T).drop B))
    ∧ (2 * B < (tok.encode T).length →
        B < (tok.encode (tok.decode ((tok.encode T).drop B))).length) := by
  constructor
  · simp only [truncate_single, truncate_message]
    by_cases h : (tok.encode T).length ≤ B
    · rw [if_pos h, if_pos h]
    · rw [if_neg h, if_neg h, if_pos (by omega)]
  · intro h2
    rw [hRT, List.length_drop]
    omega

/-- Witness for C2 at the unary tokenizer, budget 1 and a three-token text
(so the caveat's hypothesis `2 * B <` count is also satisfied). -/
theorem single_truncation_spec_witness :
    (unaryTok.encode (unaryTok.decode ((unaryTok.encode "bbb").drop 1)) =
      (unaryTok.encode "bbb").drop 1)
    ∧ (truncate_single unaryTok "bbb" 1 =
        some (if (unaryTok.encode "bbb").length ≤ 1 then "bbb"
              else unaryTok.decode ((unaryTok.encode "bbb").drop 1))
      ∧ (2 * 1 < (unaryTok.encode "bbb").length →
          1 < (unaryTok.encode (unaryTok.decode ((unaryTok.encode "bbb").drop 1))).length)) :=
  ⟨by decide, single_truncation_spec unaryTok 1 "bbb" (by decide)⟩

/-- Claim C3: whenever conversation truncation succeeds, the result is a
suffix of the original message list (whole messages removed only from the
oldest end, order preserved) in which at most the first retained message was
mutated, its content replaced by the decoding of a tail of its own encoding;
every later message is kept verbatim. -/
theorem truncation_shape_invariant (tok : Tokenizer) (B : Nat)
    (messages messages' : List Message)
    (h : truncate_multiple tok messages B = some messages') :
    (∃ k, messages' = messages.drop k) ∨
    (∃ k j, messages' = (messages.drop k).modifyHead
      (fun m => { m with content := tok.decode ((tok.encode m.content).drop j) })) := by
  simp only [truncate_multiple] at h
  split at h
  · injection h with h
    exact Or.inl ⟨0, by rw [List.drop_zero, h]⟩
  · exact truncate_multiple_loop_shape tok B _ messages messages' _ rfl h

/-- Witness for C3 on the concrete two-message conversation. -/
theorem truncation_shape_invariant_witness :
    truncate_multiple unaryTok msgsEx 1 = some resEx
    ∧ ((∃ k, resEx = msgsEx.drop k) ∨
      (∃ k j, resEx = (msgsEx.drop k).modifyHead
        (fun m => { m with content := unaryTok.decode ((unaryTok.encode m.content).drop j) }))) :=
  ⟨by decide, truncation_shape_invariant unaryTok 1 msgsEx resEx (by decide)⟩

/-- Claim C7: truncation is total for every tokenizer, budget, text, message
type and conversation — the modelled panics (the loop's `assert!` on an empty
token deque and the out-of-bounds `drain`) never occur, and decoding of a
token tail is total (lossy recovery), so the result is always `some`. -/
theorem truncation_never_fails (tok : Tokenizer) (message : String)
    (messages : List Message) (mt : MessageType) (B : Nat) :
    (truncate_single tok message B).isSome = true
    ∧ (truncate_multiple tok messages B).isSome = true
    ∧ (truncate_messages tok mt B).isSome = true := by
  have hsingle : ∀ s, (truncate_single tok s B).isSome = true := by
    intro s
    simp only [truncate_single]
    split
    · rfl
    · rename_i hlt
      simp only [truncate_message]
      rw [if_pos (by omega)]
      rfl
  have hmulti : ∀ ms : List Message, (truncate_multiple tok ms B).isSome = true := by
    intro ms
    simp only [truncate_multiple]
    split
    · rfl
    · apply truncate_multiple_loop_total
      · exact Nat.le_add_right _ _
      · simp
  refine ⟨hsingle message, hmulti messages, ?_⟩
  cases mt with
  | Single s => simpa [truncate_messages] using hsingle s
  | Multiple ms => simpa [truncate_messages] using hmulti ms

/-! Lemmas about the think-tag extraction state machine. -/

theorem strIsEmpty_eq_false (s : String) (h : s ≠ "") : strIsEmpty s = false := by
  rcases s with ⟨data⟩
  cases data with
  | nil => exact absurd rfl h
  | cons c cs => rfl

theorem isHeartbeat_false_of_content (d : Delta) (s : String) (hc : d.content = some s)
    (hs : strIsEmpty s = false) : isHeartbeat d = false := by
  simp [isHeartbeat, hc, hs]

theorem isHeartbeat_false_of_reasoning_none (d : Delta)
    (hr : d.reasoning_content = none) : isHeartbeat d = false := by
  simp [isHeartbeat, hr]

theorem splitFirst_content_ne_empty (s pat b a : String)
    (h : splitFirst s pat = (b, some a)) : s ≠ "" := by
  intro he
  subst he
  rw [show splitFirst "" pat = ("", none) from rfl] at h
  exact Option.noConfusion (congrArg Prod.snd h)

theorem processChunk_begin_close (f : Bool) (chunk : Chunk) (choice : Choice)
    (tl : List Choice) (s b a : String)
    (hch : chunk.choices = choice :: tl)
    (hc : choice.delta.content = some s)
    (hsplit : splitFirst s THINK_END_TAG = (b, some a)) :
    processChunk (ThinkTagState.Begin f) chunk =
      Except.ok ([withDelta chunk choice tl (Delta.mk (some b) none),
        withDelta chunk choice tl (Delta.mk none (some a))], ThinkTagState.End) := by
  have hhb : isHeartbeat choice.delta = false :=
    isHeartbeat_false_of_content choice.delta s hc
      (strIsEmpty_eq_false s (splitFirst_content_ne_empty s THINK_END_TAG b a hsplit))
  have hcon : strContains s THINK_END_TAG = true := by
    simp [strContains, hsplit]
  simp [processChunk, hch, hhb, hc, hcon, hsplit]

theorem processChunk_init_short (chunk : Chunk) (choice : Choice) (tl : List Choice)
    (s b a : String)
    (hch : chunk.choices = choice :: tl)
    (hr : choice.delta.reasoning_content = none)
    (hc : choice.delta.content = some s)
    (hpre : strStartsWith s THINK_BEGIN_TAG = true)
    (hsplit : splitFirst (strTrimLeft (strDropChars s THINK_BEGIN_TAG.length)) THINK_END_TAG
      = (b, some a)) :
    processChunk ThinkTagState.Init chunk =
      Except.ok ([withDelta chunk choice tl (Delta.mk (some b) none),
        withDelta chunk choice tl (Delta.mk none (some (strTrimLeft a)))], ThinkTagState.End) := by
  have hhb : isHeartbeat choice.delta = false :=
    isHeartbeat_false_of_reasoning_none choice.delta hr
  have hcon : strContains (strTrimLeft (strDropChars s THINK_BEGIN_TAG.length)) THINK_END_TAG
      = true := by
    simp [strContains, hsplit]
  simp [processChunk, hch, hhb, hr, hc, hpre, hcon, hsplit]

theorem processChunk_terminal (state : ThinkTagState)
    (hstate : state = ThinkTagState.End ∨ state = ThinkTagState.NoTag)
    (c : Chunk) (hc : passable c = true) :
    processChunk state c = Except.ok ([c], state) := by
  cases hcc : c.choices with
  | nil => simp [passable, hcc] at hc
  | cons ch tl =>
    have hhb : isHeartbeat ch.delta = false := by
      simp [passable, hcc] at hc
      simpa using hc
    rcases hstate with h | h <;> subst h <;> simp [processChunk, hcc, hhb]

theorem extract_cot_passthrough (state : ThinkTagState)
    (hstate : state = ThinkTagState.End ∨ state = ThinkTagState.NoTag) :
    ∀ chunks : List Chunk, (∀ c ∈ chunks, passable c = true) →
      extract_cot state (chunks.map Except.ok) = chunks.map Except.ok := by
  intro chunks
  induction chunks with
  | nil => intro _; rfl
  | cons c rest ih =>
    intro h
    have hc := h c (by simp)
    have hrest := ih (fun x hx => h x (by simp [hx]))
    simp [extract_cot, processChunk_terminal state hstate c hc, hrest]

/-! Claim theorems about the think-tag extraction state machine. -/

/-- Claim C4, counterexample: the claim's exception is false on the code.
With the closing tag exactly at the end of the in-think chunk's content
(`"x</think>"`), the extractor still emits two chunks for that input item
(`splitn(2, _)` yields a trailing empty remainder, so the second, content
chunk is emitted with empty content), not one. -/
theorem inthink_close_at_end_counterexample :
    (extract_cot (ThinkTagState.Begin false) [Except.ok closeAtEndChunk]).length = 2
    ∧ (extract_cot (ThinkTagState.Begin false) [Except.ok closeAtEndChunk]).length ≠ 1 :=
  ⟨by decide, by decide⟩

/-- Claim C4 (amended): in the think-block state, an input chunk whose content
contains the closing tag always yields exactly two output chunks — first one
with only reasoning populated (the text before the tag), then one with only
content populated (the text after the tag, which is the empty string when the
tag sits exactly at the end) — after which the stream continues in the closed
state. -/
theorem inthink_close_two_outputs (f : Bool) (chunk : Chunk) (choice : Choice)
    (tl : List Choice) (s b a : String) (rest : List (Except String Chunk))
    (hch : chunk.choices = choice :: tl)
    (hc : choice.delta.content = some s)
    (hsplit : splitFirst s THINK_END_TAG = (b, some a)) :
    extract_cot (ThinkTagState.Begin f) (Except.ok chunk :: rest) =
      Except.ok (withDelta chunk choice tl (Delta.mk (some b) none)) ::
      Except.ok (withDelta chunk choice tl (Delta.mk none (some a))) ::
      extract_cot ThinkTagState.End rest := by
  simp [extract_cot, processChunk_begin_close f chunk choice tl s b a hch hc hsplit]

/-- Witness for the amended C4 on a concrete in-think chunk closing with
trailing text. -/
theorem inthink_close_two_outputs_witness :
    beginCloseChunk.choices = mkChoice (Delta.mk none (some "r</think>tail")) :: []
    ∧ (mkChoice (Delta.mk none (some "r</think>tail"))).delta.content = some "r</think>tail"
    ∧ splitFirst "r</think>tail" THINK_END_TAG = ("r", some "tail")
    ∧ extract_cot (ThinkTagState.Begin false) [Except.ok beginCloseChunk] =
        Except.ok (withDelta beginCloseChunk (mkChoice (Delta.mk none (some "r</think>tail"))) []
          (Delta.mk (some "r") none)) ::
        Except.ok (withDelta beginCloseChunk (mkChoice (Delta.mk none (some "r</think>tail"))) []
          (Delta.mk none (some "tail"))) ::
        extract_cot ThinkTagState.End [] :=
  ⟨rfl, rfl, by decide,
    inthink_close_two_outputs false beginCloseChunk
      (mkChoice (Delta.mk none (some "r</think>tail"))) [] "r</think>tail" "r" "tail" []
      rfl rfl (by decide)⟩

/-- Claim C5, counterexample: in the `NoTag` terminal state a heartbeat chunk
(both fields present and empty, choices non-empty) is skipped, so the output
is not item-for-item identical to the input. -/
theorem terminal_state_passthrough_counterexample :
    extract_cot ThinkTagState.NoTag [Except.ok heartbeatChunk] ≠ [Except.ok heartbeatChunk] := by
  rw [show extract_cot ThinkTagState.NoTag [Except.ok heartbeatChunk] = [] from rfl]
  exact fun h => List.cons_ne_nil _ _ h.symm

/-- Claim C5 (amended): once the state machine is in the `NoTag` or `Closed`
(`End`) state, a stream of chunks each of which has a choice and is not an
empty heartbeat is forwarded item-for-item unchanged; heartbeat chunks are
the only exception (they are dropped). -/
theorem terminal_state_passthrough (state : ThinkTagState)
    (hstate : state = ThinkTagState.End ∨ state = ThinkTagState.NoTag)
    (chunks : List Chunk) (h : ∀ c ∈ chunks, passable c = true) :
    extract_cot state (chunks.map Except.ok) = chunks.map Except.ok :=
  extract_cot_passthrough state hstate chunks h

/-- Witness for the amended C5 on a one-chunk stream in the closed state. -/
theorem terminal_state_passthrough_witness :
    (ThinkTagState.End = ThinkTagState.End ∨ ThinkTagState.End = ThinkTagState.NoTag)
    ∧ (∀ c ∈ [passEx], passable c = true)
    ∧ extract_cot ThinkTagState.End ([passEx].map Except.ok) = [passEx].map Except.ok :=
  ⟨Or.inl rfl, by decide,
    terminal_state_passthrough ThinkTagState.End (Or.inl rfl) [passEx] (by decide)⟩

/-- Claim C6: the first malformed item is fatal — an upstream error item is
forwarded as-is and terminates the output; a chunk with empty choices yields
exactly the `empty choice` error as the one final output item; an `Init`-state
chunk with neither reasoning nor content yields exactly the
`reasoning_content or content is empty` error as the one final output item;
in all three cases nothing is emitted afterward whatever remains upstream. -/
theorem first_error_terminal (state1 state2 : ThinkTagState) (e : String)
    (rest1 rest2 rest3 : List (Except String Chunk))
    (c2 c3 : Chunk) (ch : Choice) (tl : List Choice)
    (h2 : c2.choices = [])
    (h3 : c3.choices = ch :: tl)
    (hr : ch.delta.reasoning_content = none)
    (hc : ch.delta.content = none) :
    extract_cot state1 (Except.error e :: rest1) = [Except.error e]
    ∧ extract_cot state2 (Except.ok c2 :: rest2) = [Except.error "empty choice"]
    ∧ extract_cot ThinkTagState.Init (Except.ok c3 :: rest3)
        = [Except.error "reasoning_content or content is empty"] := by
  refine ⟨rfl, ?_, ?_⟩
  · simp [extract_cot, processChunk, h2]
  · have hhb : isHeartbeat ch.delta = false := isHeartbeat_false_of_reasoning_none ch.delta hr
    simp [extract_cot, processChunk, h3, hhb, hr, hc]

/-- Witness for C6: an upstream error, an empty-choices chunk and a
missing-content chunk, each followed by a further valid chunk that is
discarded. -/
theorem first_error_terminal_witness :
    emptyChoicesChunk.choices = []
    ∧ missingContentChunk.choices = mkChoice (Delta.mk none none) :: []
    ∧ (mkChoice (Delta.mk none none)).delta.reasoning_content = none
    ∧ (mkChoice (Delta.mk none none)).delta.content = none
    ∧ (extract_cot ThinkTagState.Init (Except.error "boom" :: [Except.ok passEx])
          = [Except.error "boom"]
      ∧ extract_cot ThinkTagState.NoTag (Except.ok emptyChoicesChunk :: [Except.ok passEx])
          = [Except.error "empty choice"]
      ∧ extract_cot ThinkTagState.Init (Except.ok missingContentChunk :: [Except.ok passEx])
          = [Except.error "reasoning_content or content is empty"]) :=
  ⟨rfl, rfl, rfl, rfl,
    first_error_terminal ThinkTagState.Init ThinkTagState.NoTag "boom"
      [Except.ok passEx] [Except.ok passEx] [Except.ok passEx]
      emptyChoicesChunk missingContentChunk (mkChoice (Delta.mk none none)) []
      rfl rfl rfl rfl⟩

/-- Claim C8: every chunk the state machine emits while the response has been
classified as carrying think-tags has at most one of the two delta channels
populated — both for any step taken in the in-think (`Begin`) state and for
the `Init` step that enters think mode (content starting with the opening
tag). -/
theorem think_mode_single_channel (f : Bool) (chunk1 chunk2 : Chunk)
    (outs1 outs2 : List Chunk) (st1 st2 : ThinkTagState)
    (choice : Choice) (tl : List Choice) (s : String)
    (h1 : processChunk (ThinkTagState.Begin f) chunk1 = Except.ok (outs1, st1))
    (hch : chunk2.choices = choice :: tl)
    (hr : choice.delta.reasoning_content = none)
    (hc : choice.delta.content = some s)
    (hpre : strStartsWith s THINK_BEGIN_TAG = true)
    (h2 : processChunk ThinkTagState.Init chunk2 = Except.ok (outs2, st2)) :
    (∀ o ∈ outs1, head_single o = true) ∧ (∀ o ∈ outs2, head_single o = true) := by
  constructor
  · cases hcc : chunk1.choices with
    | nil => simp [processChunk, hcc] at h1
    | cons ch ctl =>
      by_cases hhb : isHeartbeat ch.delta = true
      · simp [processChunk, hcc, hhb] at h1
        obtain ⟨ho, -⟩ := h1
        subst ho
        simp
      · simp only [Bool.not_eq_true] at hhb
        cases hct : ch.delta.content with
        | none =>
          simp [processChunk, hcc, hhb, hct] at h1
          obtain ⟨ho, -⟩ := h1
          subst ho
          simp [head_single, hcc, at_most_one, hct]
        | some s' =>
          rcases hsp : splitFirst s' THINK_END_TAG with ⟨b', oa⟩
          cases oa with
          | none =>
            have hcon : strContains s' THINK_END_TAG = false := by
              simp [strContains, hsp]
            simp [processChunk, hcc, hhb, hct, hcon] at h1
            obtain ⟨ho, -⟩ := h1
            subst ho
            simp [head_single, withDelta, at_most_one]
          | some a' =>
            have hcon : strContains s' THINK_END_TAG = true := by
              simp [strContains, hsp]
            simp [processChunk, hcc, hhb, hct, hcon, hsp] at h1
            obtain ⟨ho, -⟩ := h1
            subst ho
            simp [head_single, withDelta, at_most_one]
  · have hhb : isHeartbeat choice.delta = false :=
      isHeartbeat_false_of_reasoning_none choice.delta hr
    rcases hsp : splitFirst (strTrimLeft (strDropChars s THINK_BEGIN_TAG.length)) THINK_END_TAG
      with ⟨b', oa⟩
    cases oa with
    | none =>
      have hcon : strContains (strTrimLeft (strDropChars s THINK_BEGIN_TAG.length)) THINK_END_TAG
          = false := by
        simp [strContains, hsp]
      simp [processChunk, hch, hhb, hr, hc, hpre, hcon] at h2
      obtain ⟨ho, -⟩ := h2
      subst ho
      simp [head_single, withDelta, at_most_one]
    | some a' =>
      have hcon : strContains (strTrimLeft (strDropChars s THINK_BEGIN_TAG.length)) THINK_END_TAG
          = true := by
        simp [strContains, hsp]
      simp [processChunk, hch, hhb, hr, hc, hpre, hcon, hsp] at h2
      obtain ⟨ho, -⟩ := h2
      subst ho
      simp [head_single, withDelta, at_most_one]

/-- Witness for C8: a plain in-think reasoning chunk and an opening chunk
whose think block stays open. -/
theorem think_mode_single_channel_witness :
    processChunk (ThinkTagState.Begin true) beginMoveChunk =
      Except.ok ([withDelta beginMoveChunk (mkChoice (Delta.mk none (some "abc"))) []
        (Delta.mk (some "abc") none)], ThinkTagState.Begin true)
    ∧ strStartsWith "<think>hm" THINK_BEGIN_TAG = true
    ∧ processChunk ThinkTagState.Init initThinkChunk =
      Except.ok ([withDelta initThinkChunk (mkChoice (Delta.mk none (some "<think>hm"))) []
        (Delta.mk (some "hm") none)], ThinkTagState.Begin false)
    ∧ ((∀ o ∈ [withDelta beginMoveChunk (mkChoice (Delta.mk none (some "abc"))) []
          (Delta.mk (some "abc") none)], head_single o = true)
      ∧ (∀ o ∈ [withDelta initThinkChunk (mkChoice (Delta.mk none (some "<think>hm"))) []
          (Delta.mk (some "hm") none)], head_single o = true)) :=
  ⟨rfl, by decide, rfl,
    think_mode_single_channel true beginMoveChunk initThinkChunk _ _ _ _
      (mkChoice (Delta.mk none (some "<think>hm"))) [] "<think>hm"
      rfl rfl rfl rfl (by decide) rfl⟩

/-- Claim C9: the text emitted as content after a closing tag is trimmed of
leading whitespace when opening and closing tags arrive in the same
`Init`-state chunk (short-block path), but is left untrimmed when the closing
tag arrives in a later, in-think-state chunk — exactly the asymmetry of the
source. -/
theorem after_close_trim_asymmetry (f : Bool) (chunk1 chunk2 : Chunk)
    (choice1 choice2 : Choice) (tl1 tl2 : List Choice) (s1 s2 b1 b2 a1 a2 : String)
    (hch1 : chunk1.choices = choice1 :: tl1)
    (hr1 : choice1.delta.reasoning_content = none)
    (hc1 : choice1.delta.content = some s1)
    (hpre : strStartsWith s1 THINK_BEGIN_TAG = true)
    (hsplit1 : splitFirst (strTrimLeft (strDropChars s1 THINK_BEGIN_TAG.length)) THINK_END_TAG
      = (b1, some a1))
    (hch2 : chunk2.choices = choice2 :: tl2)
    (hc2 : choice2.delta.content = some s2)
    (hsplit2 : splitFirst s2 THINK_END_TAG = (b2, some a2)) :
    processChunk ThinkTagState.Init chunk1 =
      Except.ok ([withDelta chunk1 choice1 tl1 (Delta.mk (some b1) none),
        withDelta chunk1 choice1 tl1 (Delta.mk none (some (strTrimLeft a1)))], ThinkTagState.End)
    ∧ processChunk (ThinkTagState.Begin f) chunk2 =
      Except.ok ([withDelta chunk2 choice2 tl2 (Delta.mk (some b2) none),
        withDelta chunk2 choice2 tl2 (Delta.mk none (some a2))], ThinkTagState.End) :=
  ⟨processChunk_init_short chunk1 choice1 tl1 s1 b1 a1 hch1 hr1 hc1 hpre hsplit1,
    processChunk_begin_close f chunk2 choice2 tl2 s2 b2 a2 hch2 hc2 hsplit2⟩

/-- Witness for C9 on concrete chunks whose after-tag text carries a leading
space: the short-block path emits `"hi"`, the in-think path emits `" ho"`. -/
theorem after_close_trim_asymmetry_witness :
    splitFirst (strTrimLeft (strDropChars "<think>x</think> hi" THINK_BEGIN_TAG.length))
        THINK_END_TAG = ("x", some " hi")
    ∧ splitFirst "y</think> ho" THINK_END_TAG = ("y", some " ho")
    ∧ (processChunk ThinkTagState.Init initShortChunk =
        Except.ok ([withDelta initShortChunk
            (mkChoice (Delta.mk none (some "<think>x</think> hi"))) [] (Delta.mk (some "x") none),
          withDelta initShortChunk (mkChoice (Delta.mk none (some "<think>x</think> hi"))) []
            (Delta.mk none (some (strTrimLeft " hi")))], ThinkTagState.End)
      ∧ processChunk (ThinkTagState.Begin false) beginCloseSpaceChunk =
        Except.ok ([withDelta beginCloseSpaceChunk
            (mkChoice (Delta.mk none (some "y</think> ho"))) [] (Delta.mk (some "y") none),
          withDelta beginCloseSpaceChunk (mkChoice (Delta.mk none (some "y</think> ho"))) []
            (Delta.mk none (some " ho"))], ThinkTagState.End)) :=
  ⟨by decide, by decide,
    after_close_trim_asymmetry false initShortChunk beginCloseSpaceChunk
      (mkChoice (Delta.mk none (some "<think>x</think> hi")))
      (mkChoice (Delta.mk none (some "y</think> ho"))) [] []
      "<think>x</think> hi" "y</think> ho" "x" "y" " hi" " ho"
      rfl rfl rfl (by decide) (by decide) rfl rfl (by decide)⟩

/-- Claim C10, counterexample: after the first chunk (present-but-empty
content) sends the machine to `NoTag`, a subsequent heartbeat chunk is
dropped rather than passed through, so not every subsequent chunk passes
through. -/
theorem empty_content_no_tag_counterexample :
    extract_cot ThinkTagState.Init [Except.ok emptyContentChunk, Except.ok heartbeatChunk]
      ≠ [Except.ok emptyContentChunk, Except.ok heartbeatChunk] := by
  rw [show extract_cot ThinkTagState.Init [Except.ok emptyContentChunk, Except.ok heartbeatChunk]
      = [Except.ok emptyContentChunk] from rfl]
  intro h
  injection h with h1 h2
  exact List.cons_ne_nil _ _ h2.symm

/-- Claim C10 (amended): a first chunk with non-empty choices, absent
reasoning and present-but-empty content is not heartbeat-suppressed (the
rule needs both fields present and empty), sends the machine to `NoTag` and
is emitted unchanged; every subsequent chunk with a choice that is not an
empty heartbeat — in particular chunks whose content begins with the opening
think tag — passes through unchanged with no extraction applied (heartbeat
chunks are dropped without extraction). -/
theorem empty_content_no_tag (c0 : Chunk) (ch : Choice) (tl : List Choice)
    (chunks : List Chunk)
    (h0 : c0.choices = ch :: tl)
    (hr : ch.delta.reasoning_content = none)
    (hc : ch.delta.content = some "")
    (hrest : ∀ c ∈ chunks, passable c = true) :
    isHeartbeat ch.delta = false
    ∧ processChunk ThinkTagState.Init c0 = Except.ok ([c0], ThinkTagState.NoTag)
    ∧ extract_cot ThinkTagState.Init (Except.ok c0 :: chunks.map Except.ok)
        = Except.ok c0 :: chunks.map Except.ok := by
  have hhb : isHeartbeat ch.delta = false := isHeartbeat_false_of_reasoning_none ch.delta hr
  have hsw : strStartsWith "" THINK_BEGIN_TAG = false := by decide
  have hp : processChunk ThinkTagState.Init c0 = Except.ok ([c0], ThinkTagState.NoTag) := by
    simp [processChunk, h0, hhb, hr, hc, hsw]
  refine ⟨hhb, hp, ?_⟩
  simp [extract_cot, hp,
    extract_cot_passthrough ThinkTagState.NoTag (Or.inr rfl) chunks hrest]

/-- Witness for the amended C10: the empty-content first chunk followed by a
chunk opening a think tag and an ordinary chunk, all passed through. -/
theorem empty_content_no_tag_witness :
    emptyContentChunk.choices = mkChoice (Delta.mk none (some "")) :: []
    ∧ (∀ c ∈ [thinkStartChunk, passEx], passable c = true)
    ∧ (isHeartbeat (mkChoice (Delta.mk none (some ""))).delta = false
      ∧ processChunk ThinkTagState.Init emptyContentChunk
          = Except.ok ([emptyContentChunk], ThinkTagState.NoTag)
      ∧ extract_cot ThinkTagState.Init
          (Except.ok emptyContentChunk :: [thinkStartChunk, passEx].map Except.ok)
          = Except.ok emptyContentChunk :: [thinkStartChunk, passEx].map Except.ok) :=
  ⟨rfl, by decide,
    empty_content_no_tag emptyContentChunk (mkChoice (Delta.mk none (some ""))) []
      [thinkStartChunk, passEx] rfl rfl rfl (by decide)⟩

end OpenaiEnhance
